import Mathlib

/-!
Verification of the rindgen directory-index generator (src/main.rs) against its
specification. The filesystem walk (`generate`, lines 144-165), the byte-size
formatter (`size_fmt`, lines 256-270), the icon resolver (`get_icon_by_mime`,
lines 272-300) and the fail-fast error pipeline (`generate`, lines 129-249) are
embedded shallowly below; theorems settle the frozen claims C1-C10.
-/

/-! ## Byte-wise name order and the stable insertion used by the walker

`WalkDir::sort_by_file_name` sorts siblings by `OsString` comparison, which for
valid UTF-8 file names is byte-wise order, equal to code-point lexicographic
order. `charsLe` is that order on code points; `sortLe` is a stable
comparison sort, extensionally equal to any stable sort with the same
comparator. -/

def charsLe : List Char → List Char → Bool
  | [], _ => true
  | _ :: _, [] => false
  | a :: as, b :: bs =>
    if a.toNat < b.toNat then true
    else if b.toNat < a.toNat then false
    else charsLe as bs

def strLe (a b : String) : Bool := charsLe a.toList b.toList

def insertLe {α : Type} (le : α → α → Bool) (x : α) : List α → List α
  | [] => [x]
  | y :: ys => if le x y then x :: y :: ys else y :: insertLe le x ys

def sortLe {α : Type} (le : α → α → Bool) : List α → List α
  | [] => []
  | x :: xs => insertLe le x (sortLe le xs)

/-! ## Filesystem model and the walk of `generate` (main.rs:144-165) -/

/-- A filesystem subtree: regular files with a size, directories with a
children list. Symlinks/special files are out of scope of the claims. -/
inductive FsTree where
  | file (n : String) (sz : Nat)
  | dir (n : String) (cs : List FsTree)

def nameOf : FsTree → String
  | .file n _ => n
  | .dir n _ => n

def childrenOf : FsTree → List FsTree
  | .file _ _ => []
  | .dir _ cs => cs

def isDirT : FsTree → Bool
  | .file _ _ => false
  | .dir _ _ => true

/-- The `filter_entry` predicate of main.rs:148-153: an entry survives iff its
file name is none of the three literal reserved names. The configured output
filename (`name`, main.rs:107) is not consulted by the filter. -/
def keep (n : String) : Bool := !(n == "index.html" || n == "images" || n == "favicon.ico")

def treeLe (a b : FsTree) : Bool := strLe (nameOf a) (nameOf b)

/-- Children of one directory in the order the walker streams them: sorted by
file name (`sort_by_file_name`), then pruned by `filter_entry`. -/
def kidsOrder (cs : List FsTree) : List FsTree :=
  (sortLe treeLe cs).filter (fun c => keep (nameOf c))

/-- A yielded `DirEntry`: its path relative to the walk root `.` (as the list
of path components below the root), its file name, its file type, and its
`walkdir` depth. -/
structure FsEntry where
  path : List String
  name : String
  isDir : Bool
  depth : Nat
deriving Repr, DecidableEq

/-- Entries strictly below a tree node `t` sitting at depth `d` and path `p`,
in stream order. `fuel` is the remaining depth budget `max_depth - d`: walkdir
yields an entry at depth `d + 1` iff `d + 1 ≤ max_depth` (i.e. `fuel ≥ 1`) and
descends from depth `d + 1` iff `d + 1 < max_depth`, which is exactly the
recursion with `fuel - 1`. `filter_entry` prunes before descent. -/
def walkSub : Nat → Nat → List String → FsTree → List FsEntry
  | 0, _, _, _ => []
  | fuel + 1, d, p, t =>
    (kidsOrder (childrenOf t)).flatMap
      (fun c => ⟨p ++ [nameOf c], nameOf c, isDirT c, d + 1⟩ ::
        walkSub fuel (d + 1) (p ++ [nameOf c]) c)

/-- The full entry stream of `WalkDir::new(".").max_depth(md).sort_by_file_name()`
filtered by `filter_entry`, with the depth-0 root entry skipped
(main.rs:157-159). -/
def walk (md : Nat) (t : FsTree) : List FsEntry := walkSub md 0 [] t

/-- The entry stream of a run configured with output filename `outName`.
The source's `filter_entry` closure (main.rs:148-153) tests the literals
`"index.html"`, `"images"`, `"favicon.ico"` and does not reference the
configured `name`; the parameter records that configuration for the claims
about it. -/
def generateEntries (outName : String) (md : Nat) (t : FsTree) : List FsEntry :=
  walk md t

/-- The group for key `k`: the entries pushed into `map[k]` (main.rs:161-164),
i.e. the walked entries whose `path().parent()` is `k`, in stream order.
Keys are parent paths as component lists (`[]` is the root `"."`). -/
def groupOf (es : List FsEntry) (k : List String) : List FsEntry :=
  es.filter (fun e => e.path.dropLast == k)

/-- Resolve a path below a tree node: follow the (first) child of the given
name at each component. On a real filesystem sibling names are distinct, so
the first match is the only match. -/
def findAt : List String → FsTree → Option FsTree
  | [], t => some t
  | c :: rest, t =>
    match (childrenOf t).find? (fun u => nameOf u == c) with
    | some u => findAt rest u
    | none => none

def nodupB : List String → Bool
  | [] => true
  | x :: xs => !(xs.contains x) && nodupB xs

/-- Filesystem well-formedness down to `fuel` levels: sibling names are
pairwise distinct, as every real directory guarantees. -/
def wfFuel : Nat → FsTree → Bool
  | 0, _ => true
  | fuel + 1, t => nodupB ((childrenOf t).map nameOf) && (childrenOf t).all (wfFuel fuel)

/-- The value of `groupOf (walk md root) k` read off the tree: resolve `k`,
check every component survives the filter and the group's children are within
the depth cutoff, and list the filtered sorted children. Proved equal to the
walk's group by `groupOf_walkSub` below. -/
def groupView (fuel d : Nat) (p k : List String) (t : FsTree) : List FsEntry :=
  match findAt k t with
  | none => []
  | some u =>
    if k.all keep && decide (k.length < fuel) then
      (kidsOrder (childrenOf u)).map
        (fun c => ⟨(p ++ k) ++ [nameOf c], nameOf c, isDirT c, d + k.length + 1⟩)
    else []

/-! ## The size formatter `size_fmt` (main.rs:256-270)

`size_fmt` takes a `u64`, converts it to `f64` (`len as f64`), then repeatedly
divides by `1024.0`. The conversion rounds to the nearest representable double
(ties to even); every subsequent division by `1024.0` and every comparison is
exact in `f64` for these values, so the loop state is modelled exactly by a
rational. `{:3.0}`/`{:3.1}` format with the given precision (rounding ties to
even), right-aligned to a minimum width of 3, then a space and the unit. -/

/-- Exponent of the largest power of two that is `≤ b` (for `b ≥ 1`). -/
def pow2floorExp (b : Nat) : Nat :=
  (List.range 64).foldl (fun acc i => if 2 ^ i ≤ b then i else acc) 0

/-- `b as f64` for a `u64` `b`: round to nearest representable (53-bit
significand), ties to even. Exact for `b < 2^53`. -/
def fl (b : Nat) : Nat :=
  if b < 2 ^ 53 then b
  else
    let e := pow2floorExp b
    let ulp := 2 ^ (e - 52)
    let q := b / ulp
    let r := b % ulp
    if 2 * r < ulp then q * ulp
    else if ulp < 2 * r then (q + 1) * ulp
    else if q % 2 = 0 then q * ulp else (q + 1) * ulp

/-- Round a rational to the nearest integer, ties to even (the rounding Rust's
float formatting applies to the exact binary value). -/
def halfEven (x : ℚ) : ℤ :=
  let n := ⌊x⌋
  if x - n < 1 / 2 then n
  else if (1 : ℚ) / 2 < x - n then n + 1
  else if n % 2 = 0 then n else n + 1

/-- Right-align to a minimum width with spaces, as Rust's `{:3...}` does for
numeric values. -/
def padl (s : String) (w : Nat) : String := ⟨List.replicate (w - s.length) ' '⟩ ++ s

/-- The digits of `{:.0}` applied to a (nonnegative) value. -/
def zeroDec (x : ℚ) : String := toString (halfEven x).toNat

/-- The digits of `{:.1}` applied to a (nonnegative) value. -/
def oneDec (x : ℚ) : String :=
  let m := (halfEven (10 * x)).toNat
  toString (m / 10) ++ "." ++ toString (m % 10)

def sizeUnits : List String := ["", "KiB", "MiB", "GiB", "TiB", "PiB", "EiB", "ZiB"]

/-- The `for unit in [...]` loop of main.rs:259-268 followed by the
unconditional YiB case of main.rs:269. -/
def sizeLoop (x : ℚ) : List String → String
  | [] => oneDec x ++ " " ++ "YiB"
  | u :: us =>
    if |x| < 1024 then
      if u = "" then padl (zeroDec x) 3 ++ " " ++ u
      else padl (oneDec x) 3 ++ " " ++ u
    else sizeLoop (x / 1024) us

def size_fmt (len : Nat) : String := sizeLoop ((fl len : Nat) : ℚ) sizeUnits

/-! ## The icon resolver `get_icon_by_mime` (main.rs:272-300)

The embedded icon catalog `ICON_DIR` is an asset tree, not source code; claims
C3-C5 quantify over catalogs, so it is a parameter mapping an asset path to
its raw bytes. `MAIN_SEPARATOR_STR` is `"/"` (Unix). `mime.split('/')` is
`splitChar '/'`. Indexing `segments[1]` out of bounds is a panic, modelled as
`none`. -/

def splitCharAux (sep : Char) : List Char → List Char → List (List Char)
  | [], acc => [acc.reverse]
  | c :: cs, acc =>
    if c = sep then acc.reverse :: splitCharAux sep cs []
    else splitCharAux sep cs (c :: acc)

/-- Rust's `str::split(sep)` collected to a list. -/
def splitChar (sep : Char) (s : String) : List String :=
  (splitCharAux sep s.toList []).map (fun cs => ⟨cs⟩)

def b64Chars : List Char :=
  "ABCDEFGHIJKLMNOPQRSTUVWXYZabcdefghijklmnopqrstuvwxyz0123456789+/".toList

def b64At (n : Nat) : Char := b64Chars.getD n '?'

/-- RFC 4648 standard base64 with padding (`BASE64_STANDARD.encode`) over a
byte list. -/
def base64Encode : List Nat → String
  | [] => ""
  | [b1] => ⟨[b64At (b1 / 4), b64At (b1 % 4 * 16), '=', '=']⟩
  | [b1, b2] => ⟨[b64At (b1 / 4), b64At (b1 % 4 * 16 + b2 / 16), b64At (b2 % 16 * 4), '=']⟩
  | b1 :: b2 :: b3 :: rest =>
    (⟨[b64At (b1 / 4), b64At (b1 % 4 * 16 + b2 / 16), b64At (b2 % 16 * 4 + b3 / 64),
       b64At (b3 % 64)]⟩ : String) ++ base64Encode rest

/-- The `for target in valid_targets` loop of main.rs:290-297: first catalog
hit is base64-encoded and returned; otherwise the empty string. -/
def resolveChain (iconset : String) (catalog : String → Option (List Nat)) : List String → String
  | [] => ""
  | target :: rest =>
    match catalog (iconset ++ "/" ++ target ++ ".svg") with
    | some bytes => base64Encode bytes
    | none => resolveChain iconset catalog rest

/-- main.rs:272-300. `none` models the `segments[1]` index panic, which is
reached exactly when the effective MIME is non-empty and contains no `/`. -/
def get_icon_by_mime (mime0 : String) (is_dir : Bool) (iconset : String)
    (catalog : String → Option (List Nat)) : Option String :=
  let mime := if is_dir then "inode/directory" else mime0
  if mime = "" then some (resolveChain iconset catalog ["default"])
  else
    let segments := splitChar '/' mime
    if 2 ≤ segments.length then
      some (resolveChain iconset catalog
        [segments.getD 0 "" ++ "/" ++ segments.getD 1 "", segments.getD 0 "", "default"])
    else none

/-! ## The fail-fast error pipeline of `generate` (main.rs:129-249)

Every fallible step uses `?`: walk errors (main.rs:155), metadata reads
(main.rs:203-211), template rendering (main.rs:221-238), and file writes
(main.rs:244-245). I/O effects are modelled as oracle functions returning
`Except`; a run's outcome carries the list of files fully written before the
first failure, which the code never removes. -/

/-- The `for entry in ...` header: `let entry = entry?` stops at the first
errored walk item (main.rs:154-155). -/
def collectEntries {η : Type} : List (Except String η) → Except String (List η)
  | [] => .ok []
  | .error e :: _ => .error e
  | .ok x :: rest =>
    match collectEntries rest with
    | .error e => .error e
    | .ok xs => .ok (x :: xs)

/-- The per-group `for f in v` loop building `FileItem`s: the first metadata
failure aborts (main.rs:197-219). -/
def extractAll {η φ : Type} (meta : η → Except String φ) : List η → Except String (List φ)
  | [] => .ok []
  | x :: xs =>
    match meta x with
    | .error e => .error e
    | .ok fi =>
      match extractAll meta xs with
      | .error e => .error e
      | .ok fis => .ok (fi :: fis)

/-- One group's work (main.rs:194-246): extract metadata, render, write
`k + "/" + name`; the produced html on success, the first error otherwise. -/
def stepRun {η φ : Type} (meta : η → Except String φ)
    (render : String → List φ → Except String String)
    (writeF : String → String → Except String Unit) (name : String)
    (g : String × List η) : Except String String :=
  match extractAll meta g.2 with
  | .error e => .error e
  | .ok fis =>
    match render g.1 fis with
    | .error e => .error e
    | .ok html =>
      match writeF (g.1 ++ "/" ++ name) html with
      | .error e => .error e
      | .ok _ => .ok html

/-- The `for (k, v) in map.iter()` loop (main.rs:194-246). `acc` is the list
of `(path, content)` pairs already written; on the first error the run stops
with that error and the writes made so far. -/
def processGroups {η φ : Type} (meta : η → Except String φ)
    (render : String → List φ → Except String String)
    (writeF : String → String → Except String Unit) (name : String) :
    List (String × List η) → List (String × String) →
      Except (String × List (String × String)) (List (String × String))
  | [], acc => .ok acc
  | (k, v) :: gs, acc =>
    match extractAll meta v with
    | .error e => .error (e, acc)
    | .ok fis =>
      match render k fis with
      | .error e => .error (e, acc)
      | .ok html =>
        match writeF (k ++ "/" ++ name) html with
        | .error e => .error (e, acc)
        | .ok _ => processGroups meta render writeF name gs (acc ++ [(k ++ "/" ++ name, html)])

/-- Append an entry to its keyed list, keeping first-insertion key order (the
`HashMap` iteration order is unspecified; the claims are order-independent). -/
def insertGroup {η : Type} : List (String × List η) → String → η → List (String × List η)
  | [], k, x => [(k, [x])]
  | (k', v) :: gs, k, x =>
    if k' = k then (k', v ++ [x]) :: gs else (k', v) :: insertGroup gs k x

def mkGroups {η : Type} (parentOf : η → String) (es : List η) : List (String × List η) :=
  es.foldl (fun acc x => insertGroup acc (parentOf x) x) []

/-- The whole of `generate` after configuration: stream the walk, group, then
process every group; the success value and the error payload both carry the
files written. -/
def generateModel {η φ : Type} (parentOf : η → String) (meta : η → Except String φ)
    (render : String → List φ → Except String String)
    (writeF : String → String → Except String Unit) (name : String)
    (stream : List (Except String η)) :
    Except (String × List (String × String)) (List (String × String)) :=
  match collectEntries stream with
  | .error e => .error (e, [])
  | .ok es => processGroups meta render writeF name (mkGroups parentOf es) []

/-- The files written by a list of groups that all succeed. -/
def writesOf {η φ : Type} (meta : η → Except String φ)
    (render : String → List φ → Except String String)
    (writeF : String → String → Except String Unit) (name : String)
    (gs : List (String × List η)) : List (String × String) :=
  gs.map (fun g => (g.1 ++ "/" ++ name, ((stepRun meta render writeF name g).toOption.getD "")))

/-! ## Size formatter: claims C2 and C9 -/

theorem fl_small (b : Nat) (hb : b < 2 ^ 53) : fl b = b := by
  unfold fl
  rw [if_pos hb]

theorem zeroDec_natCast (b : Nat) : zeroDec ((b : Nat) : ℚ) = toString b := by
  simp [zeroDec, halfEven, Int.floor_natCast]

/-- C2 (amended): for b < 1024 the formatter produces the decimal integer
string of b right-aligned to minimum width 3 and followed by one space
(the `{:3.0} {}` format with an empty unit), with no unit letters. -/
theorem size_fmt_small (b : Nat) (hb : b < 1024) :
    size_fmt b = padl (toString b) 3 ++ " " := by
  have hfl : fl b = b := fl_small b (lt_trans hb (by norm_num))
  rw [size_fmt, hfl]
  have hx : |((b : Nat) : ℚ)| < 1024 := by
    rw [abs_of_nonneg (by positivity)]
    exact_mod_cast hb
  rw [show sizeUnits = "" :: ["KiB", "MiB", "GiB", "TiB", "PiB", "EiB", "ZiB"] from rfl]
  rw [sizeLoop, if_pos hx, if_pos rfl, zeroDec_natCast]
  simp

/-- C2 witness: the theorem applied at b = 5. -/
theorem size_fmt_small_witness : 5 < 1024 ∧ size_fmt 5 = padl (toString 5) 3 ++ " " :=
  ⟨by decide, size_fmt_small 5 (by decide)⟩

/-- C2 counterexample: `size_fmt 5` is `"  5 "` (padded, trailing space), not
the bare integer string `"5"` the claim requires. -/
theorem size_fmt_small_cex : size_fmt 5 = "  5 " ∧ size_fmt 5 ≠ "5" := by
  have h : size_fmt 5 = "  5 " := by
    norm_num [size_fmt, fl, sizeLoop, sizeUnits, zeroDec, halfEven, padl]
    decide
  exact ⟨h, by rw [h]; decide⟩

theorem sizeLoop_step (x : ℚ) (u : String) (us : List String) (h : 1024 ≤ x) :
    sizeLoop x (u :: us) = sizeLoop (x / 1024) us := by
  have hn : ¬ (|x| < 1024) := by
    rw [abs_of_nonneg (by linarith)]
    linarith
  simp only [sizeLoop, if_neg hn]

theorem sizeLoop_reach : ∀ (j : Nat) (us : List String) (x : ℚ), j ≤ us.length →
    (1024 : ℚ) ^ j ≤ x → sizeLoop x us = sizeLoop (x / 1024 ^ j) (us.drop j)
  | 0, us, x, _, _ => by simp
  | j + 1, [], _, h, _ => by simp at h
  | j + 1, u :: us, x, h, hx => by
    have h1024 : (1024 : ℚ) ≤ x := le_trans (le_self_pow (by norm_num) (by omega)) hx
    rw [sizeLoop_step x u us h1024]
    have hdiv : (1024 : ℚ) ^ j ≤ x / 1024 := by
      rw [le_div_iff (by norm_num)]
      calc (1024 : ℚ) ^ j * 1024 = 1024 ^ (j + 1) := by ring
        _ ≤ x := hx
    rw [sizeLoop_reach j us (x / 1024) (by simpa using h) hdiv]
    congr 1
    rw [div_div]
    congr 1
    ring

theorem toString_digit_len (r : Nat) (h : r < 10) : (toString r).length = 1 := by
  interval_cases r <;> decide

/-- C9 (amended): when the f64 value `fl b` of the byte count lies in the k-th
1024-band (k = 1 .. 8), the formatter divides by 1024 exactly k times and
prints the k-th unit label with exactly one decimal digit (`{:3.1}` for the
named units, the bare `{:.1}` for the terminal YiB). -/
theorem size_fmt_band (b k : Nat) (hk1 : 1 ≤ k) (hk8 : k ≤ 8)
    (hlo : 1024 ^ k ≤ fl b) (hhi : fl b < 1024 ^ (k + 1)) :
    ∃ m : Nat,
      (k ≤ 7 → size_fmt b =
        padl (toString (m / 10) ++ "." ++ toString (m % 10)) 3 ++ " " ++ sizeUnits.getD k "YiB")
      ∧ (k = 8 → size_fmt b = toString (m / 10) ++ "." ++ toString (m % 10) ++ " " ++ "YiB")
      ∧ (toString (m % 10)).length = 1 := by
  have hcast_lo : (1024 : ℚ) ^ k ≤ ((fl b : Nat) : ℚ) := by exact_mod_cast hlo
  have hlen : k ≤ sizeUnits.length := by simp [sizeUnits]; omega
  have hreach := sizeLoop_reach k sizeUnits ((fl b : Nat) : ℚ) hlen hcast_lo
  have hx0 : (0 : ℚ) ≤ ((fl b : Nat) : ℚ) / 1024 ^ k := by positivity
  have hxlt : ((fl b : Nat) : ℚ) / 1024 ^ k < 1024 := by
    rw [div_lt_iff (by positivity)]
    calc ((fl b : Nat) : ℚ) < (1024 : ℚ) ^ (k + 1) := by exact_mod_cast hhi
      _ = 1024 * 1024 ^ k := by ring
  have habs : |((fl b : Nat) : ℚ) / 1024 ^ k| < 1024 := by
    rw [abs_of_nonneg hx0]
    exact hxlt
  refine ⟨(halfEven (10 * (((fl b : Nat) : ℚ) / 1024 ^ k))).toNat, ?_, ?_, ?_⟩
  · intro hk7
    have hklen : k < sizeUnits.length := by
      simp only [sizeUnits, List.length_cons, List.length_nil]
      omega
    have hdrop : sizeUnits.drop k = sizeUnits.getD k "YiB" :: sizeUnits.drop (k + 1) := by
      rw [List.getD_eq_getElem sizeUnits "YiB" hklen]
      exact List.drop_eq_getElem_cons hklen
    have hne : sizeUnits.getD k "YiB" ≠ "" := by interval_cases k <;> decide
    rw [size_fmt, hreach, hdrop, sizeLoop, if_pos habs, if_neg hne]
    rfl
  · intro hk; subst hk
    rw [size_fmt, hreach]
    rfl
  · exact toString_digit_len _ (Nat.mod_lt _ (by norm_num))

/-- C9 witness: b = 2048 lies in the KiB band and formats as `"2.0 KiB"`. -/
theorem size_fmt_band_witness : ∃ m : Nat,
    (1 ≤ 7 → size_fmt 2048 =
      padl (toString (m / 10) ++ "." ++ toString (m % 10)) 3 ++ " " ++ sizeUnits.getD 1 "YiB")
    ∧ (1 = 8 → size_fmt 2048 = toString (m / 10) ++ "." ++ toString (m % 10) ++ " " ++ "YiB")
    ∧ (toString (m % 10)).length = 1 :=
  size_fmt_band 2048 1 (by decide) (by decide) (by decide) (by decide)

/-- C9 counterexample: 2^60 - 1 is strictly inside the PiB band
(1024^5 ≤ b < 1024^6), but `len as f64` rounds it up to 2^60, so the loop
lands on EiB: the output is `"1.0 EiB"` and in particular never the
`"... PiB"` the claim requires for this band. -/
theorem size_fmt_band_cex :
    1024 ^ 5 ≤ 2 ^ 60 - 1 ∧ 2 ^ 60 - 1 < 1024 ^ 6 ∧
    sizeUnits.getD 5 "YiB" = "PiB" ∧
    size_fmt (2 ^ 60 - 1) = "1.0 EiB" ∧
    ¬ ∃ s : String, size_fmt (2 ^ 60 - 1) = s ++ "PiB" := by
  have hfl : fl (2 ^ 60 - 1) = 2 ^ 60 := by decide
  have hmain : size_fmt (2 ^ 60 - 1) = "1.0 EiB" := by
    rw [size_fmt, hfl]
    norm_num [sizeLoop, sizeUnits, oneDec, halfEven, padl]
    decide
  refine ⟨by decide, by decide, rfl, hmain, ?_⟩
  rintro ⟨s, hs⟩
  rw [hmain] at hs
  have h3 : ("1.0 EiB").data.reverse.take 3 = ((s ++ "PiB").data.reverse).take 3 := by
    rw [hs]
  rw [show (s ++ "PiB").data = s.data ++ "PiB".data from rfl, List.reverse_append,
    show ("PiB").data.reverse = ['B', 'i', 'P'] from rfl,
    show (3 : Nat) = ['B', 'i', 'P'].length from rfl, List.take_left] at h3
  exact absurd h3 (by decide)

/-! ## Icon resolver: claims C3, C4, C5 -/

theorem iconPath (ics t u : String) (h : ("/" ++ (t ++ ".svg")) = u) :
    ics ++ "/" ++ t ++ ".svg" = ics ++ u := by
  rw [String.append_assoc, String.append_assoc, h]

theorem resolveChain_cons (ics : String) (cat : String → Option (List Nat))
    (target : String) (rest : List String) (u : String) (hu : ("/" ++ (target ++ ".svg")) = u) :
    resolveChain ics cat (target :: rest) =
      match cat (ics ++ u) with
      | some bytes => base64Encode bytes
      | none => resolveChain ics cat rest := by
  simp only [resolveChain]
  rw [iconPath ics target u hu]

/-- C5: a directory resolves its icon exactly as the fixed MIME
`inode/directory` would, whatever MIME was passed in (main.rs:275-277). -/
theorem icon_dir_override (mime iconset : String) (catalog : String → Option (List Nat)) :
    get_icon_by_mime mime true iconset catalog =
      get_icon_by_mime "inode/directory" false iconset catalog := rfl

/-- C4: for MIME `text/plain` the chain tries `text/plain`, then `text`, then
`default`, base64-encoding the bytes of the first catalog hit; with `text`
present the answer is the `text` icon whatever `default` holds, and with no
hit at all the answer is the empty string, not an error. -/
theorem icon_chain_order (ics : String) (cat : String → Option (List Nat)) (b1 b2 b3 : List Nat) :
    (cat (ics ++ "/text/plain.svg") = some b1 →
      get_icon_by_mime "text/plain" false ics cat = some (base64Encode b1))
    ∧ (cat (ics ++ "/text/plain.svg") = none → cat (ics ++ "/text.svg") = some b2 →
      get_icon_by_mime "text/plain" false ics cat = some (base64Encode b2))
    ∧ (cat (ics ++ "/text/plain.svg") = none → cat (ics ++ "/text.svg") = none →
      cat (ics ++ "/default.svg") = some b3 →
      get_icon_by_mime "text/plain" false ics cat = some (base64Encode b3))
    ∧ (cat (ics ++ "/text/plain.svg") = none → cat (ics ++ "/text.svg") = none →
      cat (ics ++ "/default.svg") = none →
      get_icon_by_mime "text/plain" false ics cat = some "") := by
  have h0 : get_icon_by_mime "text/plain" false ics cat
      = some (resolveChain ics cat ["text/plain", "text", "default"]) := rfl
  have e1 := resolveChain_cons ics cat "text/plain" ["text", "default"] "/text/plain.svg" rfl
  have e2 := resolveChain_cons ics cat "text" ["default"] "/text.svg" rfl
  have e3 := resolveChain_cons ics cat "default" [] "/default.svg" rfl
  refine ⟨?_, ?_, ?_, ?_⟩
  · intro h1
    rw [h0, e1, h1]
  · intro h1 h2
    rw [h0, e1, h1, e2, h2]
  · intro h1 h2 h3
    rw [h0, e1, h1, e2, h2, e3, h3]
  · intro h1 h2 h3
    rw [h0, e1, h1, e2, h2, e3, h3]
    rfl

/-- C4 witness: a catalog holding only the `text` target yields the base64 of
its bytes for `text/plain`. -/
theorem icon_chain_order_witness :
    get_icon_by_mime "text/plain" false "papirus"
      (fun p => if p = "papirus/text.svg" then some [1, 2, 3] else none) =
      some (base64Encode [1, 2, 3]) :=
  (icon_chain_order "papirus"
    (fun p => if p = "papirus/text.svg" then some [1, 2, 3] else none) [] [1, 2, 3] []).2.1
    (by decide) (by decide)

/-- C3 (amended): the resolver returns a string for every directory entry and
for every MIME that is empty or contains a slash; an empty MIME degenerates
the chain to the `default` step alone. But the exact-match step is guarded
only by non-emptiness (main.rs:279-288), so a non-empty MIME without `/`
reaches `segments[1]` out of bounds: a panic, modelled as `none`. -/
theorem icon_resolver_totality (mime : String) (is_dir : Bool) (ics : String)
    (cat : String → Option (List Nat)) :
    ((is_dir = true ∨ mime = "" ∨ 2 ≤ (splitChar '/' mime).length) →
      ∃ s, get_icon_by_mime mime is_dir ics cat = some s)
    ∧ (mime = "" → is_dir = false →
      get_icon_by_mime mime is_dir ics cat = some (resolveChain ics cat ["default"]))
    ∧ (is_dir = false → mime ≠ "" → (splitChar '/' mime).length < 2 →
      get_icon_by_mime mime is_dir ics cat = none) := by
  cases is_dir with
  | true =>
    refine ⟨fun _ => ⟨_, rfl⟩, ?_, ?_⟩
    · intro _ h
      exact absurd h (by decide)
    · intro h
      exact absurd h (by decide)
  | false =>
    by_cases hm : mime = ""
    · subst hm
      refine ⟨fun _ => ⟨_, rfl⟩, fun _ _ => rfl, ?_⟩
      intro _ hne
      exact absurd rfl hne
    · by_cases hlen : 2 ≤ (splitChar '/' mime).length
      · refine ⟨?_, ?_, ?_⟩
        · intro _
          refine ⟨resolveChain ics cat
            [(splitChar '/' mime).getD 0 "" ++ "/" ++ (splitChar '/' mime).getD 1 "",
             (splitChar '/' mime).getD 0 "", "default"], ?_⟩
          simp [get_icon_by_mime, hm, hlen]
        · intro h
          exact absurd h hm
        · intro _ _ h
          omega
      · refine ⟨?_, ?_, ?_⟩
        · rintro (h | h | h)
          · exact absurd h (by decide)
          · exact absurd h hm
          · exact absurd h hlen
        · intro h
          exact absurd h hm
        · intro _ _ _
          simp [get_icon_by_mime, hm, hlen]

/-- C3 counterexample: the non-empty slash-free MIME `"foo"` makes
`mime.split('/')` yield one segment, so `segments[1]` panics (modelled `none`):
the resolver is not total. -/
theorem icon_resolver_totality_cex :
    "foo" ≠ "" ∧ (splitChar '/' "foo").length = 1 ∧
    get_icon_by_mime "foo" false "papirus" (fun _ => none) = none := by
  decide

/-- C3 witness: the amended theorem applied at a slashed MIME and at the empty
MIME. -/
theorem icon_resolver_totality_witness :
    (∃ s, get_icon_by_mime "application/pdf" false "papirus" (fun _ => none) = some s) ∧
    get_icon_by_mime "" false "papirus" (fun _ => none) =
      some (resolveChain "papirus" (fun _ => none) ["default"]) :=
  ⟨(icon_resolver_totality "application/pdf" false "papirus" (fun _ => none)).1
      (Or.inr (Or.inr (by decide))),
    (icon_resolver_totality "" false "papirus" (fun _ => none)).2.1 rfl rfl⟩

/-! ## Fail-fast error propagation: claim C10 -/

theorem collectEntries_error {η : Type} :
    ∀ (pre post : List (Except String η)) (e : String),
      (∀ x ∈ pre, ∃ v, x = Except.ok v) →
      collectEntries (pre ++ Except.error e :: post) = Except.error e
  | [], _, _, _ => rfl
  | x :: pre, post, e, h => by
    obtain ⟨v, rfl⟩ := h x (List.mem_cons_self x pre)
    have ih := collectEntries_error pre post e (fun y hy => h y (List.mem_cons_of_mem _ hy))
    show (match collectEntries (pre ++ Except.error e :: post) with
      | Except.error e => Except.error e
      | Except.ok xs => Except.ok (v :: xs)) = Except.error e
    rw [ih]

/-- One group either fails with the first stage error, acc unchanged, or
succeeds and appends its written file. -/
theorem processGroups_cons_eq {η φ : Type} (meta : η → Except String φ)
    (render : String → List φ → Except String String)
    (writeF : String → String → Except String Unit) (name k : String) (v : List η)
    (gs : List (String × List η)) (acc : List (String × String)) :
    processGroups meta render writeF name ((k, v) :: gs) acc =
      match stepRun meta render writeF name (k, v) with
      | .error e => Except.error (e, acc)
      | .ok html => processGroups meta render writeF name gs (acc ++ [(k ++ "/" ++ name, html)]) := by
  cases hex : extractAll meta v with
  | error e => simp [processGroups, stepRun, hex]
  | ok fis =>
    cases hren : render k fis with
    | error e => simp [processGroups, stepRun, hex, hren]
    | ok html =>
      cases hw : writeF (k ++ "/" ++ name) html with
      | error e => simp [processGroups, stepRun, hex, hren, hw]
      | ok u => simp [processGroups, stepRun, hex, hren, hw]

theorem processGroups_error_aux {η φ : Type} (meta : η → Except String φ)
    (render : String → List φ → Except String String)
    (writeF : String → String → Except String Unit) (name : String) :
    ∀ (pre : List (String × List η)) (g : String × List η) (post : List (String × List η))
      (acc : List (String × String)) (e : String),
      (∀ g' ∈ pre, ∃ h, stepRun meta render writeF name g' = Except.ok h) →
      stepRun meta render writeF name g = Except.error e →
      processGroups meta render writeF name (pre ++ g :: post) acc =
        Except.error (e, acc ++ writesOf meta render writeF name pre)
  | [], g, post, acc, e, _, hg => by
    obtain ⟨k, v⟩ := g
    rw [List.nil_append, processGroups_cons_eq, hg]
    simp [writesOf]
  | (k, v) :: pre, g, post, acc, e, hpre, hg => by
    obtain ⟨h, hok⟩ := hpre (k, v) (List.mem_cons_self _ _)
    have ih := processGroups_error_aux meta render writeF name pre g post
      (acc ++ [(k ++ "/" ++ name, h)]) e
      (fun g' hg' => hpre g' (List.mem_cons_of_mem _ hg')) hg
    rw [List.cons_append, processGroups_cons_eq, hok]
    show processGroups meta render writeF name (pre ++ g :: post) (acc ++ [(k ++ "/" ++ name, h)]) =
      Except.error (e, acc ++ writesOf meta render writeF name ((k, v) :: pre))
    rw [ih]
    simp [writesOf, hok, Except.toOption]

/-- C10: every error is fatal and unrecovered. A walk-stream error aborts the
run before anything is written; and if the groups before some failing group
all succeed while that group's metadata extraction, render, or write fails,
the run stops with that error and the files already written are exactly the
earlier groups' outputs, which are not removed. -/
theorem generate_fail_fast {η φ : Type} (parentOf : η → String) (meta : η → Except String φ)
    (render : String → List φ → Except String String)
    (writeF : String → String → Except String Unit) (name : String) :
    (∀ (pre post : List (Except String η)) (e : String),
      (∀ x ∈ pre, ∃ v, x = Except.ok v) →
      generateModel parentOf meta render writeF name (pre ++ Except.error e :: post) =
        Except.error (e, [])) ∧
    (∀ (pre : List (String × List η)) (g : String × List η)
      (post : List (String × List η)) (e : String),
      (∀ g' ∈ pre, ∃ h, stepRun meta render writeF name g' = Except.ok h) →
      stepRun meta render writeF name g = Except.error e →
      processGroups meta render writeF name (pre ++ g :: post) [] =
        Except.error (e, writesOf meta render writeF name pre)) := by
  constructor
  · intro pre post e hpre
    simp only [generateModel, collectEntries_error pre post e hpre]
  · intro pre g post e hpre hg
    simpa using processGroups_error_aux meta render writeF name pre g post [] e hpre hg

/-- C10 witness: a two-item stream whose second item errors aborts with no
writes; and a write failure on the second of two groups stops with exactly the
first group's file written. -/
theorem generate_fail_fast_witness :
    generateModel (fun _ => ".") (fun n => Except.ok n)
      (fun _ _ => Except.ok "H") (fun _ _ => Except.ok ()) "index.html"
      ([Except.ok 1] ++ Except.error "boom" :: []) = Except.error ("boom", []) ∧
    processGroups (fun n => Except.ok (n : Nat)) (fun _ _ => Except.ok "H")
      (fun p _ => if p = "sub/index.html" then Except.error "denied" else Except.ok ())
      "index.html" ([(".", [1])] ++ ("sub", [2]) :: []) [] =
      Except.error ("denied",
        writesOf (fun n => Except.ok (n : Nat)) (fun _ _ => Except.ok "H")
          (fun p _ => if p = "sub/index.html" then Except.error "denied" else Except.ok ())
          "index.html" [(".", [1])]) := by
  constructor
  · exact (generate_fail_fast (fun _ => ".") (fun n => Except.ok (n : Nat))
      (fun _ _ => Except.ok "H") (fun _ _ => Except.ok ()) "index.html").1
      [Except.ok 1] [] "boom"
      (by
        intro x hx
        rw [List.mem_singleton] at hx
        exact ⟨1, hx⟩)
  · exact (generate_fail_fast (fun _ => ".") (fun n => Except.ok (n : Nat))
      (fun _ _ => Except.ok "H")
      (fun p _ => if p = "sub/index.html" then Except.error "denied" else Except.ok ())
      "index.html").2
      [(".", [1])] ("sub", [2]) [] "denied"
      (by
        intro g' hg'
        rw [List.mem_singleton] at hg'
        subst hg'
        exact ⟨"H", rfl⟩)
      rfl

/-! ## Order lemmas for the walker's name sort -/

theorem charsLe_cons_iff (a b : Char) (as bs : List Char) :
    charsLe (a :: as) (b :: bs) = true ↔
      a.toNat < b.toNat ∨ (a.toNat = b.toNat ∧ charsLe as bs = true) := by
  simp only [charsLe]
  split_ifs with h1 h2
  · simp [h1]
  · simp only [Bool.false_eq_true, false_iff]
    rintro (h | ⟨h, _⟩) <;> omega
  · have heq : a.toNat = b.toNat := by omega
    simp [heq]

theorem charsLe_total : ∀ a b, charsLe a b = true ∨ charsLe b a = true
  | [], _ => Or.inl rfl
  | _ :: _, [] => Or.inr rfl
  | a :: as, b :: bs => by
    rw [charsLe_cons_iff, charsLe_cons_iff]
    rcases Nat.lt_trichotomy a.toNat b.toNat with h | h | h
    · exact Or.inl (Or.inl h)
    · rcases charsLe_total as bs with ih | ih
      · exact Or.inl (Or.inr ⟨h, ih⟩)
      · exact Or.inr (Or.inr ⟨h.symm, ih⟩)
    · exact Or.inr (Or.inl h)

theorem charsLe_trans : ∀ a b c, charsLe a b = true → charsLe b c = true → charsLe a c = true
  | [], _, _, _, _ => rfl
  | _ :: _, [], _, h, _ => by simp [charsLe] at h
  | _ :: _, _ :: _, [], _, h => by simp [charsLe] at h
  | a :: as, b :: bs, c :: cs, h1, h2 => by
    rw [charsLe_cons_iff] at h1 h2 ⊢
    rcases h1 with h1 | ⟨h1, h1'⟩ <;> rcases h2 with h2 | ⟨h2, h2'⟩
    · exact Or.inl (by omega)
    · exact Or.inl (by omega)
    · exact Or.inl (by omega)
    · exact Or.inr ⟨by omega, charsLe_trans as bs cs h1' h2'⟩

theorem strLe_total (a b : String) : strLe a b = true ∨ strLe b a = true :=
  charsLe_total a.toList b.toList

theorem strLe_trans (a b c : String) (h1 : strLe a b = true) (h2 : strLe b c = true) :
    strLe a c = true :=
  charsLe_trans a.toList b.toList c.toList h1 h2

theorem treeLe_total (a b : FsTree) : treeLe a b = true ∨ treeLe b a = true :=
  strLe_total (nameOf a) (nameOf b)

theorem treeLe_trans (a b c : FsTree) (h1 : treeLe a b = true) (h2 : treeLe b c = true) :
    treeLe a c = true :=
  strLe_trans (nameOf a) (nameOf b) (nameOf c) h1 h2

theorem perm_insertLe {α : Type} (le : α → α → Bool) (x : α) :
    ∀ l : List α, (insertLe le x l).Perm (x :: l)
  | [] => List.Perm.refl _
  | y :: ys => by
    simp only [insertLe]
    split_ifs with h
    · exact List.Perm.refl _
    · exact ((perm_insertLe le x ys).cons y).trans (List.Perm.swap x y ys)

theorem perm_sortLe {α : Type} (le : α → α → Bool) : ∀ l : List α, (sortLe le l).Perm l
  | [] => List.Perm.refl _
  | x :: xs => (perm_insertLe le x (sortLe le xs)).trans ((perm_sortLe le xs).cons x)

theorem pairwise_insertLe {α : Type} (le : α → α → Bool)
    (htrans : ∀ a b c, le a b = true → le b c = true → le a c = true)
    (htot : ∀ a b, le a b = true ∨ le b a = true) (x : α) :
    ∀ l : List α, l.Pairwise (fun a b => le a b = true) →
      (insertLe le x l).Pairwise (fun a b => le a b = true)
  | [], _ => by simp [insertLe]
  | y :: ys, hp => by
    obtain ⟨hy, hp'⟩ := List.pairwise_cons.mp hp
    simp only [insertLe]
    split_ifs with h
    · refine List.pairwise_cons.mpr ⟨?_, hp⟩
      intro z hz
      rcases List.mem_cons.mp hz with rfl | hz
      · exact h
      · exact htrans x y z h (hy z hz)
    · have hyx : le y x = true := (htot x y).resolve_left (by simpa using h)
      refine List.pairwise_cons.mpr ⟨?_, pairwise_insertLe le htrans htot x ys hp'⟩
      intro z hz
      rcases List.mem_cons.mp ((perm_insertLe le x ys).mem_iff.mp hz) with rfl | hz
      · exact hyx
      · exact hy z hz

theorem pairwise_sortLe {α : Type} (le : α → α → Bool)
    (htrans : ∀ a b c, le a b = true → le b c = true → le a c = true)
    (htot : ∀ a b, le a b = true ∨ le b a = true) :
    ∀ l : List α, (sortLe le l).Pairwise (fun a b => le a b = true)
  | [] => List.Pairwise.nil
  | x :: xs => pairwise_insertLe le htrans htot x _ (pairwise_sortLe le htrans htot xs)

/-! ## Well-formedness and membership lemmas for the walk -/

theorem nodupB_nodup : ∀ l : List String, nodupB l = true → l.Nodup
  | [], _ => List.nodup_nil
  | x :: xs, h => by
    simp only [nodupB, Bool.and_eq_true, Bool.not_eq_true'] at h
    refine List.nodup_cons.mpr ⟨?_, nodupB_nodup xs h.2⟩
    simpa using h.1

theorem wfFuel_nodup (fuel : Nat) (t : FsTree) (h : wfFuel (fuel + 1) t = true) :
    ((childrenOf t).map nameOf).Nodup := by
  simp only [wfFuel, Bool.and_eq_true] at h
  exact nodupB_nodup _ h.1

theorem wfFuel_children (fuel : Nat) (t : FsTree) (h : wfFuel (fuel + 1) t = true) :
    ∀ c ∈ childrenOf t, wfFuel fuel c = true := by
  simp only [wfFuel, Bool.and_eq_true, List.all_eq_true] at h
  exact h.2

theorem wfFuel_findAt : ∀ (k : List String) (t u : FsTree) (j : Nat),
    findAt k t = some u → wfFuel (j + k.length) t = true → wfFuel j u = true
  | [], t, u, j, hf, hw => by
    simp only [findAt, Option.some.injEq] at hf
    subst hf
    simpa using hw
  | c :: rest, t, u, j, hf, hw => by
    simp only [findAt] at hf
    cases hfind : (childrenOf t).find? (fun v => nameOf v == c) with
    | none => rw [hfind] at hf; simp at hf
    | some v =>
      rw [hfind] at hf
      have hv : v ∈ childrenOf t := List.mem_of_find?_eq_some hfind
      have hw' : wfFuel (j + rest.length) v = true :=
        wfFuel_children (j + rest.length) t hw v hv
      exact wfFuel_findAt rest v u j hf hw'

theorem mem_kidsOrder {c : FsTree} {cs : List FsTree} :
    c ∈ kidsOrder cs ↔ c ∈ cs ∧ keep (nameOf c) = true := by
  rw [kidsOrder]
  constructor
  · intro h
    have h' := List.mem_filter.mp h
    exact ⟨(perm_sortLe treeLe cs).mem_iff.mp h'.1, h'.2⟩
  · intro h
    exact List.mem_filter.mpr ⟨(perm_sortLe treeLe cs).mem_iff.mpr h.1, h.2⟩

theorem kidsOrder_names_nodup (cs : List FsTree) (h : (cs.map nameOf).Nodup) :
    ((kidsOrder cs).map nameOf).Nodup := by
  have hperm : ((sortLe treeLe cs).map nameOf).Perm (cs.map nameOf) :=
    (perm_sortLe treeLe cs).map nameOf
  have h1 : ((sortLe treeLe cs).map nameOf).Nodup := hperm.symm.nodup h
  have hsub : List.Sublist ((kidsOrder cs).map nameOf) ((sortLe treeLe cs).map nameOf) :=
    (List.filter_sublist _).map nameOf
  exact h1.sublist hsub

theorem pairwise_kidsOrder (cs : List FsTree) :
    (kidsOrder cs).Pairwise (fun a b => treeLe a b = true) := by
  rw [kidsOrder]
  exact (pairwise_sortLe treeLe treeLe_trans treeLe_total cs).filter _

theorem kidsOrder_ne_nil_iff (cs : List FsTree) :
    kidsOrder cs ≠ [] ↔ cs.any (fun c => keep (nameOf c)) = true := by
  constructor
  · intro h
    obtain ⟨c, hc⟩ := List.exists_mem_of_ne_nil _ h
    rw [List.any_eq_true]
    obtain ⟨hcm, hk⟩ := mem_kidsOrder.mp hc
    exact ⟨c, hcm, hk⟩
  · rintro h hnil
    obtain ⟨c, hcm, hk⟩ := List.any_eq_true.mp h
    have : c ∈ kidsOrder cs := mem_kidsOrder.mpr ⟨hcm, hk⟩
    rw [hnil] at this
    exact absurd this (List.not_mem_nil c)

/-! ## Shape of walked entries and the group characterization -/

theorem walkSub_shape : ∀ (fuel d : Nat) (p : List String) (t : FsTree) (e : FsEntry),
    e ∈ walkSub fuel d p t → ∃ q : List String, q ≠ [] ∧ e.path = p ++ q ∧
      (∀ s ∈ q, keep s = true) ∧ e.depth = d + q.length ∧ q.length ≤ fuel
  | 0, _, _, _, _, he => absurd he (by simp [walkSub])
  | fuel + 1, d, p, t, e, he => by
    simp only [walkSub, List.mem_flatMap] at he
    obtain ⟨c, hc, he⟩ := he
    have hkeep : keep (nameOf c) = true := (mem_kidsOrder.mp hc).2
    rcases List.mem_cons.mp he with rfl | he
    · exact ⟨[nameOf c], by simp, rfl, by simpa using hkeep, by simp, by simp⟩
    · obtain ⟨q, hq, hpath, hkq, hdep, hlen⟩ :=
        walkSub_shape fuel (d + 1) (p ++ [nameOf c]) c e he
      refine ⟨nameOf c :: q, by simp, ?_, ?_, ?_, by simpa using Nat.succ_le_succ hlen⟩
      · rw [hpath, List.append_assoc]
        rfl
      · intro s hs
        rcases List.mem_cons.mp hs with rfl | hs
        · exact hkeep
        · exact hkq s hs
      · rw [hdep, List.length_cons]
        omega

theorem mem_groupOf {e : FsEntry} {es : List FsEntry} {k : List String} :
    e ∈ groupOf es k ↔ e ∈ es ∧ e.path.dropLast = k := by
  simp [groupOf, List.mem_filter]

theorem groupOf_cons (e : FsEntry) (es : List FsEntry) (k : List String) :
    groupOf (e :: es) k =
      if e.path.dropLast = k then e :: groupOf es k else groupOf es k := by
  simp only [groupOf, List.filter_cons]
  split_ifs with h1 h2 h2 <;> simp_all

theorem groupOf_flatMap {α : Type} (f : α → List FsEntry) (k : List String) :
    ∀ l : List α, groupOf (l.flatMap f) k = l.flatMap (fun x => groupOf (f x) k)
  | [] => rfl
  | x :: xs => by
    simp only [List.flatMap_cons, groupOf, List.filter_append]
    show _ ++ (xs.flatMap f).filter _ = _ ++ xs.flatMap _
    exact congrArg _ (groupOf_flatMap f k xs)

/-- No entry below path prefix `p0` can land in a group whose key conflicts
with every possible walked path under `p0`. -/
theorem groupOf_walkSub_nil (fuel d : Nat) (p0 : List String) (t : FsTree) (k : List String)
    (h : ∀ q : List String, q ≠ [] → (p0 ++ q).dropLast ≠ k) :
    groupOf (walkSub fuel d p0 t) k = [] := by
  rw [groupOf, List.filter_eq_nil_iff]
  intro e he
  obtain ⟨q, hq, hpath, _, _, _⟩ := walkSub_shape fuel d p0 t e he
  simp only [beq_iff_eq, Bool.not_eq_true]
  rw [hpath]
  exact h q hq

theorem flatMap_single {α β : Type} (f : α → β) : ∀ l : List α,
    (l.flatMap fun x => [f x]) = l.map f
  | [] => rfl
  | x :: xs => by simp only [List.flatMap_cons, List.map_cons, List.cons_append,
      List.nil_append, flatMap_single f xs]

theorem flatMap_congr_mem {α β : Type} (l : List α) (f g : α → List β)
    (h : ∀ a ∈ l, f a = g a) : l.flatMap f = l.flatMap g := by
  induction l with
  | nil => rfl
  | cons x xs ih =>
    simp only [List.flatMap_cons]
    rw [h x (List.mem_cons_self x xs), ih (fun a ha => h a (List.mem_cons_of_mem _ ha))]

/-- With pairwise-distinct names, at most one element of a flatMap over a
name-guarded function contributes, and it is the one `find?` locates. -/
theorem flatMap_pick {α : Type} (nameF : α → String) (g : α → List FsEntry) (c : String) :
    ∀ L : List α, L.Pairwise (fun a b => nameF a ≠ nameF b) →
      (L.flatMap fun x => if nameF x = c then g x else []) =
        (match L.find? (fun x => nameF x == c) with
          | some x => g x
          | none => []) := by
  intro L
  induction L with
  | nil => intro _; rfl
  | cons x L ih =>
    intro hp
    obtain ⟨hx, hp'⟩ := List.pairwise_cons.mp hp
    by_cases hxc : nameF x = c
    · rw [List.flatMap_cons, if_pos hxc, List.find?_cons_of_pos _ (by simpa using hxc)]
      have hrest : (L.flatMap fun y => if nameF y = c then g y else []) = [] := by
        rw [List.flatMap_eq_nil_iff]
        intro y hy
        rw [if_neg]
        intro hyc
        exact hx y hy (by rw [hxc, hyc])
      rw [hrest, List.append_nil]
    · rw [List.flatMap_cons, if_neg hxc, List.nil_append,
        List.find?_cons_of_neg _ (by simpa using hxc), ih hp']

/-- With nodup names, `find?` by name finds exactly the member of that name. -/
theorem find?_name_eq {α : Type} (nameF : α → String) (c : String) :
    ∀ L : List α, (L.map nameF).Nodup → ∀ x : α,
      (L.find? (fun y => nameF y == c) = some x ↔ x ∈ L ∧ nameF x = c) := by
  intro L
  induction L with
  | nil => intro _ x; simp
  | cons y L ih =>
    intro hnodup x
    rw [List.map_cons, List.nodup_cons] at hnodup
    obtain ⟨hy, hnd⟩ := hnodup
    by_cases hyc : nameF y = c
    · rw [List.find?_cons_of_pos _ (by simpa using hyc)]
      constructor
      · intro h
        injection h with h
        subst h
        exact ⟨List.mem_cons_self _ _, hyc⟩
      · rintro ⟨hm, hxc⟩
        rcases List.mem_cons.mp hm with rfl | hm
        · rfl
        · refine absurd ?_ hy
          have hin : nameF x ∈ List.map nameF L := List.mem_map_of_mem nameF hm
          rwa [hxc, ← hyc] at hin
    · rw [List.find?_cons_of_neg _ (by simpa using hyc), ih hnd x]
      constructor
      · rintro ⟨hm, hxc⟩
        exact ⟨List.mem_cons_of_mem _ hm, hxc⟩
      · rintro ⟨hm, hxc⟩
        rcases List.mem_cons.mp hm with rfl | hm
        · exact absurd hxc hyc
        · exact ⟨hm, hxc⟩

theorem groupView_none (fuel d : Nat) (p k : List String) (t : FsTree)
    (h : findAt k t = none) : groupView fuel d p k t = [] := by
  rw [groupView, h]

theorem groupView_some (fuel d : Nat) (p k : List String) (t u : FsTree)
    (h : findAt k t = some u) :
    groupView fuel d p k t =
      if k.all keep && decide (k.length < fuel) then
        (kidsOrder (childrenOf u)).map
          (fun c => ⟨(p ++ k) ++ [nameOf c], nameOf c, isDirT c, d + k.length + 1⟩)
      else [] := by
  rw [groupView, h]

theorem kids_find_none (cs : List FsTree) (c : String) (hnodup : (cs.map nameOf).Nodup)
    (h : ∀ x, ¬(x ∈ kidsOrder cs ∧ nameOf x = c)) :
    (kidsOrder cs).find? (fun x => nameOf x == c) = none := by
  cases hk : (kidsOrder cs).find? (fun x => nameOf x == c) with
  | none => rfl
  | some x =>
    have hx := (find?_name_eq nameOf c (kidsOrder cs) (kidsOrder_names_nodup cs hnodup) x).mp hk
    exact absurd hx (h x)

/-- The central characterization: on a well-formed tree, the group the walk
produces for key `p ++ k` is exactly `groupView`: empty unless `k` resolves to
a node whose components all pass the filter and whose children are inside the
depth cutoff, and otherwise the filtered name-sorted children of that node. -/
theorem groupOf_walkSub : ∀ (k : List String) (fuel d : Nat) (p : List String) (t : FsTree),
    wfFuel fuel t = true →
    groupOf (walkSub fuel d p t) (p ++ k) = groupView fuel d p k t
  | [], 0, d, p, t, _ => by
    simp [walkSub, groupOf, groupView, findAt]
  | [], fuel + 1, d, p, t, _ => by
    rw [List.append_nil]
    simp only [walkSub]
    rw [groupOf_flatMap]
    have hblock : ∀ c ∈ kidsOrder (childrenOf t),
        groupOf ((⟨p ++ [nameOf c], nameOf c, isDirT c, d + 1⟩ : FsEntry) ::
          walkSub fuel (d + 1) (p ++ [nameOf c]) c) p =
          [⟨p ++ [nameOf c], nameOf c, isDirT c, d + 1⟩] := by
      intro c _
      rw [groupOf_cons, if_pos (by simp)]
      rw [groupOf_walkSub_nil]
      intro q hq
      rw [List.dropLast_append_of_ne_nil (p ++ [nameOf c]) hq]
      intro hcontra
      have hlen := congrArg List.length hcontra
      simp at hlen
    rw [flatMap_congr_mem _ _ _ hblock, flatMap_single]
    simp [groupView, findAt, Nat.zero_lt_succ]
  | c :: rest, 0, d, p, t, _ => by
    simp only [walkSub]
    rw [show groupOf [] (p ++ c :: rest) = [] from rfl]
    cases hfa : findAt (c :: rest) t <;> simp [groupView, hfa]
  | c :: rest, fuel + 1, d, p, t, hwf => by
    have hnodup : ((childrenOf t).map nameOf).Nodup := wfFuel_nodup fuel t hwf
    have hwfc := wfFuel_children fuel t hwf
    simp only [walkSub]
    rw [groupOf_flatMap]
    have hblock : ∀ x ∈ kidsOrder (childrenOf t),
        groupOf ((⟨p ++ [nameOf x], nameOf x, isDirT x, d + 1⟩ : FsEntry) ::
          walkSub fuel (d + 1) (p ++ [nameOf x]) x) (p ++ c :: rest) =
          (if nameOf x = c then groupView fuel (d + 1) (p ++ [c]) rest x else []) := by
      intro x hx
      have hne : (p ++ [nameOf x]).dropLast ≠ p ++ c :: rest := by
        rw [List.dropLast_concat]
        intro hcontra
        have hlen := congrArg List.length hcontra
        simp at hlen
      rw [groupOf_cons, if_neg hne]
      by_cases hxc : nameOf x = c
      · rw [if_pos hxc, hxc, show p ++ c :: rest = (p ++ [c]) ++ rest from by simp]
        exact groupOf_walkSub rest fuel (d + 1) (p ++ [c]) x (hwfc x (mem_kidsOrder.mp hx).1)
      · rw [if_neg hxc]
        apply groupOf_walkSub_nil
        intro q hq
        rw [List.dropLast_append_of_ne_nil (p ++ [nameOf x]) hq, List.append_assoc]
        intro hcontra
        have hcc := List.append_cancel_left hcontra
        rw [List.singleton_append] at hcc
        exact hxc (List.cons.injEq _ _ _ _ ▸ hcc).1
    rw [flatMap_congr_mem _ _ _ hblock,
      flatMap_pick nameOf (fun x => groupView fuel (d + 1) (p ++ [c]) rest x) c
        (kidsOrder (childrenOf t))
        (by
          have hn := kidsOrder_names_nodup (childrenOf t) hnodup
          rw [List.Nodup, List.pairwise_map] at hn
          exact hn)]
    cases hfind : (childrenOf t).find? (fun u => nameOf u == c) with
    | none =>
      rw [kids_find_none (childrenOf t) c hnodup ?hnomem]
      case hnomem =>
        rintro x ⟨hxk, hxc⟩
        have := (find?_name_eq nameOf c (childrenOf t) hnodup x).mpr
          ⟨(mem_kidsOrder.mp hxk).1, hxc⟩
        rw [hfind] at this
        exact absurd this (by simp)
      simp [groupView, findAt, hfind]
    | some u =>
      have hu_mem : u ∈ childrenOf t := List.mem_of_find?_eq_some hfind
      have hu_name : nameOf u = c := by simpa using List.find?_some hfind
      have hfat : findAt (c :: rest) t = findAt rest u := by simp [findAt, hfind]
      by_cases hkc : keep c = true
      · have hu_kids : u ∈ kidsOrder (childrenOf t) :=
          mem_kidsOrder.mpr ⟨hu_mem, by rw [hu_name]; exact hkc⟩
        have hkfind : (kidsOrder (childrenOf t)).find? (fun x => nameOf x == c) = some u :=
          (find?_name_eq nameOf c _ (kidsOrder_names_nodup _ hnodup) u).mpr ⟨hu_kids, hu_name⟩
        rw [hkfind]
        show groupView fuel (d + 1) (p ++ [c]) rest u = groupView (fuel + 1) d p (c :: rest) t
        cases hfr : findAt rest u with
        | none =>
          rw [groupView_none _ _ _ _ _ hfr, groupView_none _ _ _ _ _ (by rw [hfat, hfr])]
        | some w =>
          rw [groupView_some _ _ _ _ _ w hfr, groupView_some _ _ _ _ _ w (by rw [hfat, hfr])]
          have hc1 : (((c :: rest).all keep && decide ((c :: rest).length < fuel + 1)) = true)
              ↔ ((rest.all keep && decide (rest.length < fuel)) = true) := by
            simp [List.all_cons, hkc, Nat.succ_lt_succ_iff]
          by_cases h2 : (rest.all keep && decide (rest.length < fuel)) = true
          · rw [if_pos h2, if_pos (hc1.mpr h2)]
            apply List.map_congr_left
            intro a _
            simp only [FsEntry.mk.injEq, List.length_cons]
            refine ⟨by simp, trivial, trivial, by omega⟩
          · rw [if_neg h2, if_neg (fun hx => h2 (hc1.mp hx))]
      · rw [kids_find_none (childrenOf t) c hnodup ?hnokeep]
        case hnokeep =>
          rintro x ⟨hxk, hxc⟩
          have := (mem_kidsOrder.mp hxk).2
          rw [hxc] at this
          exact absurd this (by simpa using hkc)
        show ([] : List FsEntry) = groupView (fuel + 1) d p (c :: rest) t
        cases hfr : findAt rest u with
        | none =>
          rw [groupView_none _ _ _ _ _ (by rw [hfat, hfr])]
        | some w =>
          rw [groupView_some _ _ _ _ _ w (by rw [hfat, hfr]), if_neg]
          simp [List.all_cons, hkc]

/-! ## Claims C1, C6, C7, C8 -/

/-- C1 (amended): the walk prunes, before descent, exactly the literal names
`index.html`, `images`, `favicon.ico`: no component of any walked entry's path
is one of them (so a pruned directory's whole subtree is absent) — regardless
of the configured output filename, which the filter does not consult. -/
theorem reserved_literals_pruned (outName : String) (md : Nat) (root : FsTree) :
    ∀ e ∈ generateEntries outName md root, ∀ s ∈ e.path,
      s ≠ "index.html" ∧ s ≠ "images" ∧ s ≠ "favicon.ico" := by
  intro e he s hs
  have he' : e ∈ walkSub md 0 [] root := he
  obtain ⟨q, _, hpath, hk, _, _⟩ := walkSub_shape md 0 [] root e he'
  rw [hpath, List.nil_append] at hs
  have hkeep := hk s hs
  simp [keep] at hkeep
  exact ⟨hkeep.1.1, hkeep.1.2, hkeep.2⟩

/-- C1 witness: a surviving entry of a concrete walk has no reserved
component. -/
theorem reserved_literals_pruned_witness :
    (⟨["a.txt"], "a.txt", false, 1⟩ : FsEntry) ∈
      generateEntries "out.html" 1 (.dir "." [.file "a.txt" 7, .file "images" 0]) ∧
    ("a.txt" ≠ "index.html" ∧ "a.txt" ≠ "images" ∧ "a.txt" ≠ "favicon.ico") :=
  ⟨by decide,
    reserved_literals_pruned "out.html" 1 (.dir "." [.file "a.txt" 7, .file "images" 0])
      ⟨["a.txt"], "a.txt", false, 1⟩ (by decide) "a.txt" (by decide)⟩

/-- C1 counterexample: configure the output filename as `a.txt`; a file named
`a.txt` is NOT pruned (the filter tests only the three literals), it is walked
and lands in the root group — so the claim fails for that configured output
filename. -/
theorem reserved_literals_pruned_cex :
    generateEntries "a.txt" 1 (.dir "." [.file "a.txt" 7]) =
      [⟨["a.txt"], "a.txt", false, 1⟩] ∧
    groupOf (generateEntries "a.txt" 1 (.dir "." [.file "a.txt" 7])) [] =
      [⟨["a.txt"], "a.txt", false, 1⟩] := by
  decide

/-- C6: every member of a group has the group key as its parent path; and a
key has a non-empty group exactly when it resolves to a node below the depth
cutoff, with no excluded component on its path, having at least one child
that survives the exclusion filter. -/
theorem grouping_invariant (md : Nat) (root : FsTree) (k : List String)
    (hwf : wfFuel md root = true) :
    (∀ e ∈ groupOf (walk md root) k, e.path.dropLast = k) ∧
    (groupOf (walk md root) k ≠ [] ↔
      k.length < md ∧ (∀ s ∈ k, keep s = true) ∧
      ∃ u, findAt k root = some u ∧ (childrenOf u).any (fun c => keep (nameOf c)) = true) := by
  have hmain : groupOf (walk md root) k = groupView md 0 [] k root := by
    have h := groupOf_walkSub k md 0 [] root hwf
    rwa [List.nil_append] at h
  refine ⟨fun e he => (mem_groupOf.mp he).2, ?_⟩
  rw [hmain]
  cases hfa : findAt k root with
  | none =>
    rw [groupView_none _ _ _ _ _ hfa]
    simp [hfa]
  | some u =>
    rw [groupView_some _ _ _ _ _ u hfa]
    by_cases h1 : (k.all keep && decide (k.length < md)) = true
    · rw [if_pos h1]
      rw [Bool.and_eq_true, decide_eq_true_eq] at h1
      obtain ⟨hall, hlt⟩ := h1
      constructor
      · intro hne
        refine ⟨hlt, fun s hs => (List.all_eq_true.mp hall) s hs, u, rfl, ?_⟩
        rw [← kidsOrder_ne_nil_iff]
        intro hnil
        rw [hnil] at hne
        exact hne rfl
      · rintro ⟨_, _, u', hu', hany⟩
        injection hu' with heq
        subst heq
        intro hmapnil
        exact (kidsOrder_ne_nil_iff _).mpr hany (List.map_eq_nil_iff.mp hmapnil)
    · rw [if_neg h1]
      constructor
      · intro h
        exact absurd rfl h
      · rintro ⟨hlt, hkeep, u', hu', hany⟩
        refine absurd ?_ h1
        rw [Bool.and_eq_true, decide_eq_true_eq]
        exact ⟨List.all_eq_true.mpr (fun s hs => hkeep s hs), hlt⟩

/-- C6 witness: the invariant applied to a concrete two-level tree at the key
of its subdirectory. -/
theorem grouping_invariant_witness :
    (∀ e ∈ groupOf (walk 2 (.dir "." [.file "b.txt" 1, .dir "a" [.file "c.txt" 2]])) ["a"],
      e.path.dropLast = ["a"]) ∧
    (groupOf (walk 2 (.dir "." [.file "b.txt" 1, .dir "a" [.file "c.txt" 2]])) ["a"] ≠ [] ↔
      (["a"] : List String).length < 2 ∧ (∀ s ∈ (["a"] : List String), keep s = true) ∧
      ∃ u, findAt ["a"] (.dir "." [.file "b.txt" 1, .dir "a" [.file "c.txt" 2]]) = some u ∧
        (childrenOf u).any (fun c => keep (nameOf c)) = true) :=
  grouping_invariant 2 (.dir "." [.file "b.txt" 1, .dir "a" [.file "c.txt" 2]]) ["a"] (by decide)

/-- C7: within every produced group the entries are strictly increasing in the
walker's byte-wise name order — the deterministic lexicographic listing
order. -/
theorem group_listing_sorted (md : Nat) (root : FsTree) (k : List String)
    (hwf : wfFuel md root = true) :
    (groupOf (walk md root) k).Pairwise
      (fun a b => strLe a.name b.name = true ∧ a.name ≠ b.name) := by
  have hmain : groupOf (walk md root) k = groupView md 0 [] k root := by
    have h := groupOf_walkSub k md 0 [] root hwf
    rwa [List.nil_append] at h
  rw [hmain]
  cases hfa : findAt k root with
  | none =>
    rw [groupView_none _ _ _ _ _ hfa]
    exact List.Pairwise.nil
  | some u =>
    rw [groupView_some _ _ _ _ _ u hfa]
    by_cases h1 : (k.all keep && decide (k.length < md)) = true
    · rw [if_pos h1]
      rw [Bool.and_eq_true, decide_eq_true_eq] at h1
      have hwu : ((childrenOf u).map nameOf).Nodup := by
        have hle : k.length ≤ md := le_of_lt h1.2
        have hwfu : wfFuel (md - k.length) u = true := by
          apply wfFuel_findAt k root u (md - k.length) hfa
          rwa [Nat.sub_add_cancel hle]
        obtain ⟨f, hf⟩ : ∃ f, md - k.length = f + 1 := ⟨md - k.length - 1, by omega⟩
        rw [hf] at hwfu
        exact wfFuel_nodup f u hwfu
      rw [List.pairwise_map]
      have hsorted := pairwise_kidsOrder (childrenOf u)
      have hnn : ((kidsOrder (childrenOf u)).map nameOf).Nodup :=
        kidsOrder_names_nodup _ hwu
      rw [List.Nodup, List.pairwise_map] at hnn
      exact (hsorted.and hnn).imp (fun h => h)
    · rw [if_neg h1]
      exact List.Pairwise.nil

/-- C7 witness: the root group of a concrete tree is strictly name-sorted. -/
theorem group_listing_sorted_witness :
    (groupOf (walk 2 (.dir "." [.file "b.txt" 1, .file "a.txt" 2])) []).Pairwise
      (fun a b => strLe a.name b.name = true ∧ a.name ≠ b.name) :=
  group_listing_sorted 2 (.dir "." [.file "b.txt" 1, .file "a.txt" 2]) [] (by decide)

theorem walk_one (root : FsTree) :
    walk 1 root = (kidsOrder (childrenOf root)).map
      (fun c => ⟨[nameOf c], nameOf c, isDirT c, 1⟩) := by
  show walkSub (0 + 1) 0 [] root = _
  simp only [walkSub]
  exact flatMap_single (fun c => (⟨[nameOf c], nameOf c, isDirT c, 1⟩ : FsEntry))
    (kidsOrder (childrenOf root))

/-- C8: every walked entry sits strictly between depth 1 and `max_depth` (the
root itself, depth 0, is never an entry, and depth equals the path length);
and with cutoff 1 — the `--no-recursive` setting — the walk yields exactly the
surviving immediate children of the root, no grandchildren. -/
theorem depth_cutoff (md : Nat) (root : FsTree) :
    (∀ e ∈ walk md root, e.path ≠ [] ∧ e.depth = e.path.length ∧ 1 ≤ e.depth ∧ e.depth ≤ md) ∧
    (∀ e : FsEntry, e ∈ walk 1 root ↔ ∃ c ∈ childrenOf root, keep (nameOf c) = true ∧
      e = ⟨[nameOf c], nameOf c, isDirT c, 1⟩) := by
  constructor
  · intro e he
    obtain ⟨q, hq, hpath, _, hdep, hlen⟩ := walkSub_shape md 0 [] root e he
    rw [hpath, List.nil_append]
    have hq1 : 0 < q.length := List.length_pos.mpr hq
    exact ⟨hq, by omega, by omega, by omega⟩
  · intro e
    rw [walk_one]
    constructor
    · intro he
      obtain ⟨c, hc, rfl⟩ := List.mem_map.mp he
      obtain ⟨hcm, hk⟩ := mem_kidsOrder.mp hc
      exact ⟨c, hcm, hk, rfl⟩
    · rintro ⟨c, hcm, hk, rfl⟩
      exact List.mem_map.mpr ⟨c, mem_kidsOrder.mpr ⟨hcm, hk⟩, rfl⟩

/-- C8 witness: the theorem applied to a concrete tree at cutoff 1. -/
theorem depth_cutoff_witness :
    ((⟨["a.txt"], "a.txt", false, 1⟩ : FsEntry).path ≠ [] ∧
      (⟨["a.txt"], "a.txt", false, 1⟩ : FsEntry).depth =
        (⟨["a.txt"], "a.txt", false, 1⟩ : FsEntry).path.length ∧
      1 ≤ (⟨["a.txt"], "a.txt", false, 1⟩ : FsEntry).depth ∧
      (⟨["a.txt"], "a.txt", false, 1⟩ : FsEntry).depth ≤ 1) ∧
    (⟨["sub"], "sub", true, 1⟩ : FsEntry) ∈
      walk 1 (.dir "." [.file "a.txt" 3, .dir "sub" [.file "b" 1]]) :=
  ⟨(depth_cutoff 1 (.dir "." [.file "a.txt" 3, .dir "sub" [.file "b" 1]])).1
      ⟨["a.txt"], "a.txt", false, 1⟩ (by decide),
    ((depth_cutoff 1 (.dir "." [.file "a.txt" 3, .dir "sub" [.file "b" 1]])).2
      ⟨["sub"], "sub", true, 1⟩).mpr
      ⟨.dir "sub" [.file "b" 1], List.Mem.tail _ (List.Mem.head _), rfl, rfl⟩⟩
